import Mathlib

/-!
Verification development for the queryable-properties query-rewriting core
(`queryable_properties/query.py` and the surrounding layers).

The Python mixin `QueryablePropertiesQueryMixin` is shallowly embedded as pure
functions over an explicit query-state record.  Only the code paths taken on a
modern framework version are modelled: in `query.py`, the branches guarded by
a truthy `ANNOTATION_TO_AGGREGATE_ATTRIBUTES_MAP`, by legacy method names, or
marked `pragma: no cover` are dead on modern versions, where the constant map
is empty, `BUILD_FILTER_METHOD_NAME` is `build_filter` and
`QUERY_CHAIN_METHOD_NAME` is `chain`.

Python sets are embedded as lists used up to membership, dicts as association
lists with insert-or-replace assignment, and the Python list used as a stack
(append / `[-1]` / `pop` at the end) as a Lean list whose head is the top of
the stack.  Exceptions are embedded with `Except`; the places where the source
raises before mutating any state return an error carrying no query state.
-/

/-- A queryable property descriptor as consumed by the query layer: identity is
by object reference (modelled by `id`), and the query code reads only the name
and the `filterRequiresAnnot` flag; the behavioural capabilities
(annotation builder, filter builder) live in the environment `QPEnv`. -/
structure QueryableProperty where
  id : Nat
  name : String
  /-- The `filter_requires_annotation` flag of the property. -/
  filterRequiresAnnot : Bool
  deriving DecidableEq, Repr

/-- A resolved reference to a queryable property: the property together with
the relation path through which it was reached.  Mirrors
`QueryablePropertyReference`: two references are equal iff they wrap the same
property and the same relation path. -/
structure PropertyRef where
  prop : QueryableProperty
  relPath : List String
  deriving DecidableEq, Repr

/-- The full query path of a reference: relation path plus the property name.
Its string form is the annotation alias used by the query layer. -/
def PropertyRef.fullPath (r : PropertyRef) : List String :=
  r.relPath ++ [r.prop.name]

/-- The annotation alias derived from a full reference path
(`str(property_ref.full_path)`), joining segments with the lookup separator. -/
def qpAlias (r : PropertyRef) : String :=
  String.intercalate "__" r.fullPath

/-- Splitting of a character list on the two-character lookup separator. -/
def splitSegs : List Char → List (List Char)
  | [] => [[]]
  | '_' :: '_' :: rest => [] :: splitSegs rest
  | c :: rest =>
    match splitSegs rest with
    | [] => [[c]]
    | seg :: segs => (c :: seg) :: segs

/-- Splitting of a lookup string into path segments (`QueryPath(name)` splits
the name on the lookup separator `__`). -/
def QueryPath.parse (s : String) : List String :=
  (splitSegs s.toList).map (fun cs => String.mk cs)

/-- A database/annotation value. -/
inductive Value where
  | int (n : Int)
  | str (s : String)
  | bool (b : Bool)
  | null
  deriving DecidableEq, Repr

/-- A resolved annotation expression; `isAggregate` is the result of
`contains_aggregate` on it. -/
structure Expr where
  id : Nat
  isAggregate : Bool
  deriving DecidableEq, Repr

/-- A filter expression handed to `build_filter`.  `pair` is a well-formed
`(arg, value)` item; the other constructors stand for values whose unpacking
into two components raises `TypeError` (not iterable) or `ValueError`
(wrong length) in the source. -/
inductive FilterExpr where
  | pair (arg : String) (value : Value)
  | notIterable (tag : Nat)
  | wrongLength (args : List String)
  deriving DecidableEq, Repr

/-- The `arg, value = filter_expr` unpacking; `none` means the source would
catch `TypeError`/`ValueError` here. -/
def FilterExpr.unpack : FilterExpr → Option (String × Value)
  | .pair a v => some (a, v)
  | .notIterable _ => none
  | .wrongLength _ => none

/-- A `Q`-object tree handed back by a property filter implementation:
leaves are `(path, value)` items, inner nodes combine children. -/
inductive QNode where
  | leaf (path : String) (value : Value)
  | conj (l r : QNode)
  deriving DecidableEq, Repr

/-- A built filter clause as returned by (native or property-aware) filter
building. -/
inductive Clause where
  | ofNative (fe : FilterExpr)
  | and (l r : Clause)
  deriving DecidableEq, Repr

/-- Errors raised by the embedded layer.  `fromNative` wraps an error of the
framework base implementation; `outOfFuel` is an artefact of the bounded
embedding of the mutual `build_filter`/`_add_q` recursion and corresponds to
no source behaviour. -/
inductive QPError where
  | circularDependency (propName : String)
  | missingAnnot (key : String)
  | missingUpdater (name : String)
  | conflictingValues (column : String)
  | fromNative (code : Nat)
  | outOfFuel
  deriving DecidableEq, Repr

/-- The `group_by` attribute of the query: untouched, set to `True`
(all fields), or recomputed via `set_group_by`. -/
inductive GroupBySetting where
  | initial
  | allFields
  | recomputed
  deriving DecidableEq, Repr

/-- Insert-or-replace assignment on an association list (dict assignment
`d[k] = v`). -/
def assocSet (m : List (String × Expr)) (k : String) (v : Expr) : List (String × Expr) :=
  if m.any (fun p => p.1 = k) then
    m.map (fun p => if p.1 = k then (k, v) else p)
  else
    m ++ [(k, v)]

/-- Dict lookup. -/
def assocGet (m : List (String × Expr)) (k : String) : Option Expr :=
  (m.find? (fun p => p.1 = k)).map (fun p => p.2)

/-- The keys of an association list. -/
def keysOf (m : List (String × Expr)) : List String :=
  m.map (fun p => p.1)

/-- Set union on the list embedding of Python sets
(`s.union(t)` keeps existing members and adds missing ones). -/
def listUnion (s t : List String) : List String :=
  s ++ t.filter (fun x => ¬ x ∈ s)

/-- Set insertion on the list embedding of Python sets (`s.add(x)`). -/
def listInsert (r : PropertyRef) (s : List PropertyRef) : List PropertyRef :=
  if r ∈ s then s else r :: s

/-- The queryable-properties view of a query object: the three attributes
contributed by `init_injected_attrs`, the framework annotation dict and
annotation select mask consulted by the mixin, the `group_by` attribute, and
an abstract remainder `nativeState` covering all query state only the
framework base implementation touches. -/
structure QPQuery where
  qpAnnots : List PropertyRef
  qpStack : List PropertyRef
  useMarker : Bool
  annots : List (String × Expr)
  annotSelectMask : Option (List String)
  groupBy : GroupBySetting
  nativeState : Nat
  deriving DecidableEq, Repr

/-- The environment of a query: the model-level property resolver
(`resolve_queryable_property`), the reference-level behaviour builders, and
the framework base implementations the mixin delegates to.  `native` acts on
`nativeState` only: the framework base `build_filter` has no knowledge of the
mixin attributes and does not modify the annotation dict or mask. -/
structure QPEnv where
  resolve : List String → Option (PropertyRef × List String)
  get_annot : PropertyRef → Expr
  get_filter : PropertyRef → List String → Value → QNode
  native : Nat → FilterExpr → Except Nat (Nat × Clause)
  nativeResolveRef : Nat → String → Nat
  nativeNamesToPath : List String → Nat

/-- The fresh attribute values assigned by `init_injected_attrs`. -/
def initQPAttrs (q : QPQuery) : QPQuery :=
  { q with qpAnnots := [], qpStack := [], useMarker := false }

/-- The base set used for mask restoration in
`_add_queryable_property_annotation`: the current mask, or the annotation
keys when no mask is set. -/
def maskBase (q : QPQuery) : List String :=
  match q.annotSelectMask with
  | none => keysOf q.annots
  | some m => m

/-- The framework `Query.add_annotation(annotation, alias)` with its default
`select=True`: widen a present mask by the alias (`append_annotation_mask`,
a no-op when the mask is unset) and store the expression under the alias.
Expression resolution is the identity here since `QPEnv.get_annot` already
yields resolved expressions. -/
def addAnnot (q : QPQuery) (key : String) (e : Expr) : QPQuery :=
  let q :=
    match q.annotSelectMask with
    | none => q
    | some m => { q with annotSelectMask := some (listUnion m [key]) }
  { q with annots := assocSet q.annots key e }

/-- The framework `Query.set_annotation_mask(names)` for a concrete set. -/
def setAnnotMask (q : QPQuery) (m : List String) : QPQuery :=
  { q with annotSelectMask := some m }

/-- The query state reached inside `_add_queryable_property_annotation` after
the stack push and the conditional registration: mask snapshot, push, then
either first-time registration (with mask restoration for non-selected
annotations) or mask widening for an already-annotated selected reference. -/
def qpEnterState (env : QPEnv) (q : QPQuery) (ref : PropertyRef) (select : Bool) : QPQuery :=
  let key := qpAlias ref
  let annotMask := maskBase q
  let q := { q with qpStack := ref :: q.qpStack }
  if ref ∈ q.qpAnnots then
    if select ∧ q.annotSelectMask ≠ none then
      setAnnotMask q (listUnion annotMask [key])
    else
      q
  else
    let q := addAnnot q key (env.get_annot ref)
    let q := if select then q else setAnnotMask q annotMask
    { q with qpAnnots := listInsert ref q.qpAnnots }

/-- The part of `_add_queryable_property_annotation` that runs up to `yield`:
circular-dependency guard (raised before any push or registration), then the
state transition of `qpEnterState`, then lookup of the yielded annotation. -/
def qpEnter (env : QPEnv) (q : QPQuery) (ref : PropertyRef) (select : Bool) :
    Except QPError (QPQuery × Expr) :=
  if ref ∈ q.qpStack then
    .error (.circularDependency ref.prop.name)
  else
    match assocGet (qpEnterState env q ref select).annots (qpAlias ref) with
    | none => .error (.missingAnnot (qpAlias ref))
    | some ann => .ok (qpEnterState env q ref select, ann)

/-- The part of `_add_queryable_property_annotation` that runs after the
`with` body: pop the stack (`finally`), then perform the GROUP BY setup when
the annotation contains aggregates.  On a modern framework version
`full_group_by` selects between `group_by = True` and `set_group_by()`. -/
def qpExit (q : QPQuery) (ann : Expr) (full_group_by : Bool) : QPQuery :=
  let q := { q with qpStack := q.qpStack.tail }
  if ann.isAggregate then
    if full_group_by then { q with groupBy := .allFields }
    else { q with groupBy := .recomputed }
  else q

/-- One full pass through the `_add_queryable_property_annotation` context
manager with an empty body, as performed by `_auto_annotate`. -/
def annotateRef (env : QPEnv) (q : QPQuery) (ref : PropertyRef) (full_group_by : Bool) :
    Except QPError (QPQuery × Expr) :=
  match qpEnter env q ref false with
  | .error e => .error e
  | .ok (q1, ann) => .ok (qpExit q1 ann full_group_by, ann)

/-- `_auto_annotate`: resolve the path and annotate the property as
non-selected, doing nothing when the path does not match a property.  On a
modern framework version the `full_group_by` default evaluates to `False`. -/
def auto_annotate (env : QPEnv) (q : QPQuery) (path : List String) (full_group_by : Bool) :
    Except QPError (QPQuery × Option Expr) :=
  match env.resolve path with
  | none => .ok (q, none)
  | some (ref, _lookups) =>
    match annotateRef env q ref full_group_by with
    | .error e => .error e
    | .ok (q1, ann) => .ok (q1, some ann)

/-- Delegation to the framework base `build_filter`
(`super().build_filter(filter_expr, ...)`): acts on `nativeState` only, and
its errors are the only ones surfaced. -/
def nativeBF (env : QPEnv) (q : QPQuery) (fe : FilterExpr) :
    Except QPError (QPQuery × Clause) :=
  match env.native q.nativeState fe with
  | .error n => .error (.fromNative n)
  | .ok (ns, c) => .ok ({ q with nativeState := ns }, c)

/-- The framework `_add_q` over a `Q`-object tree: recurses into children and
builds each leaf through `self.build_filter`, passed here as the parameter
`bf` (open recursion through the mixin override). -/
def add_q (bf : QPQuery → FilterExpr → Except QPError (QPQuery × Clause)) :
    QPQuery → QNode → Except QPError (QPQuery × Clause)
  | q, .leaf path v => bf q (.pair path v)
  | q, .conj l r =>
    match add_q bf q l with
    | .error e => .error e
    | .ok (q1, c1) =>
      match add_q bf q1 r with
      | .error e => .error e
      | .ok (q2, c2) => .ok (q2, .and c1 c2)

/-- `QueryablePropertiesQueryMixin.build_filter`.  The recursion through
`_add_q` is bounded by fuel; on a modern framework version the
`full_group_by` expression in the property branch evaluates to `False`. -/
def build_filter (env : QPEnv) : Nat → QPQuery → FilterExpr →
    Except QPError (QPQuery × Clause)
  | 0, _, _ => .error .outOfFuel
  | fuel + 1, q, fe =>
    match fe.unpack with
    | none => nativeBF env q fe
    | some (arg, value) =>
      match env.resolve (QueryPath.parse arg) with
      | none => nativeBF env q fe
      | some (ref, lookups) =>
        if q.qpStack.head? = some ref then
          nativeBF env q fe
        else
          let q_obj := env.get_filter ref lookups value
          if ref.prop.filterRequiresAnnot then
            match qpEnter env q ref false with
            | .error e => .error e
            | .ok (q1, ann) =>
              match add_q (build_filter env fuel) q1 q_obj with
              | .error e => .error e
              | .ok (q2, c) => .ok (qpExit q2 ann false, c)
          else
            add_q (build_filter env fuel) q q_obj

/-- `names_to_path`: prepend the relation path of the stack top before
delegating to the framework resolver. -/
def names_to_path (env : QPEnv) (q : QPQuery) (names : List String) : Nat :=
  let names :=
    match q.qpStack with
    | [] => names
    | top :: _ => top.relPath ++ names
  env.nativeNamesToPath names

/-- The result of `resolve_ref`: a property annotation expression, an outer
`Ref` to an inner annotation when summarizing, or the framework resolution. -/
inductive ResolvedRef where
  | expr (e : Expr)
  | refTo (name : String) (e : Expr)
  | native (r : Nat)
  deriving DecidableEq, Repr

/-- The body of `resolve_ref` after the query path has been computed:
auto-annotate and wrap the result, or fall back to the framework resolver
with the original (unprefixed) name.  On a modern framework version the
`full_group_by` argument (`ValuesQuerySet is not None`) is `False`. -/
def resolveRefCore (env : QPEnv) (q : QPQuery) (path : List String)
    (name : String) (summarize : Bool) : Except QPError (QPQuery × ResolvedRef) :=
  match auto_annotate env q path false with
  | .error e => .error e
  | .ok (q1, some ann) =>
    if summarize then .ok (q1, .refTo name ann) else .ok (q1, .expr ann)
  | .ok (q1, none) => .ok (q1, .native (env.nativeResolveRef q1.nativeState name))

/-- `QueryablePropertiesQueryMixin.resolve_ref`: parse the name, prepend the
relation path of the stack top, then resolve. -/
def resolve_ref (env : QPEnv) (q : QPQuery) (name : String) (summarize : Bool) :
    Except QPError (QPQuery × ResolvedRef) :=
  let query_path := QueryPath.parse name
  let query_path :=
    match q.qpStack with
    | [] => query_path
    | top :: _ => top.relPath ++ query_path
  resolveRefCore env q query_path name summarize

/-- The hidden marker key (`QUERYING_PROPERTIES_MARKER`). -/
def QP_MARKER : String := "__querying_properties__"

/-- The compiler as seen by this layer: whether the result-marking mixin was
injected, plus the annotation column map set up by `setup_query`. -/
structure SQLCompiler where
  hasMarkerMixin : Bool
  annotColMap : List (String × Int)
  deriving DecidableEq, Repr

/-- Ordered-dict assignment `d[k] = v`: replace in place, or append. -/
def odSet (m : List (String × Int)) (k : String) (v : Int) : List (String × Int) :=
  if m.any (fun p => p.1 = k) then
    m.map (fun p => if p.1 = k then (k, v) else p)
  else
    m ++ [(k, v)]

/-- Ordered-dict `base.update(entries)`. -/
def odUpdate (base : List (String × Int)) : List (String × Int) → List (String × Int)
  | [] => base
  | (k, v) :: rest => odUpdate (odSet base k v) rest

/-- `QueryablePropertiesCompilerMixin.setup_query`: rebuild the annotation
column map with the marker as its first entry, mapped to index `-1`. -/
def setup_query_col_map (old : List (String × Int)) : List (String × Int) :=
  odUpdate [(QP_MARKER, -1)] old

/-- `QueryablePropertiesCompilerMixin.results_iter` relative to the rows
produced by the framework base iterator: on a modern framework version the
fixed `True` is appended to each row.  A compiler without the injected mixin
runs the base iterator unchanged. -/
def results_iter (c : SQLCompiler) (baseRows : List (List Value)) : List (List Value) :=
  if c.hasMarkerMixin then baseRows.map (fun row => row ++ [Value.bool true])
  else baseRows

/-- `QueryablePropertiesQueryMixin.__iter__` for raw queries, relative to the
rows of the framework base iterator: the marker value is prepended as the
first value when the marker flag is set. -/
def raw_query_iter (q : QPQuery) (baseRows : List (List Value)) : List (List Value) :=
  baseRows.map (fun row => if q.useMarker then Value.bool true :: row else row)

/-- `QueryablePropertiesQueryMixin.get_compiler`: read and
reset the marker flag, produce the framework compiler, and inject the
result-marking mixin exactly when the flag was set. -/
def get_compiler (q : QPQuery) (baseColMap : List (String × Int)) :
    QPQuery × SQLCompiler :=
  let use_marker := q.useMarker
  let q := { q with useMarker := false }
  let compiler : SQLCompiler := { hasMarkerMixin := false, annotColMap := baseColMap }
  if use_marker then
    (q, { compiler with hasMarkerMixin := true })
  else
    (q, compiler)

/-- A store of the mutable annotated-properties set objects: each query holds
an index into this store, so sharing versus copying of the underlying Python
set object is observable.  Stack and marker are plain values here since
`_postprocess_clone` overwrites them wholesale. -/
abbrev AnnotStore := List (List PropertyRef)

/-- The clone-level view of a query: the index of its annotated-properties
set object plus the two scalar attributes. -/
structure CQuery where
  qpaId : Nat
  qpStack : List PropertyRef
  useMarker : Bool
  deriving DecidableEq, Repr

/-- Contents of the set object at index `i` of the store. -/
def storeGet (s : AnnotStore) (i : Nat) : List PropertyRef :=
  s.getD i []

/-- `init_injected_attrs` at the clone level: allocate a fresh empty set
object and reset stack and marker. -/
def init_injected_attrs (s : AnnotStore) (_q : CQuery) : AnnotStore × CQuery :=
  (s ++ [[]], { qpaId := s.length, qpStack := [], useMarker := false })

/-- Python set union used by `set.update`. -/
def refUnion (s t : List PropertyRef) : List PropertyRef :=
  s ++ t.filter (fun x => ¬ x ∈ s)

/-- `_postprocess_clone`: `inject_into_object` (which itself calls
`init_injected_attrs`), a second explicit `init_injected_attrs` call, then
`clone._queryable_property_annotations.update(self...)` copying the source
contents into the freshly allocated set object. -/
def postprocess_clone (s : AnnotStore) (src clone : CQuery) : AnnotStore × CQuery :=
  let (s, clone) := init_injected_attrs s clone
  let (s, clone) := init_injected_attrs s clone
  (s.set clone.qpaId (refUnion (storeGet s clone.qpaId) (storeGet s src.qpaId)), clone)

/-- `chain` on a modern framework version: the base `chain` produces a raw
clone by a shallow copy of the attribute dict, so the raw clone shares the
annotated-properties set object with the source; `_postprocess_clone` then
reinitializes it. -/
def chain (s : AnnotStore) (q : CQuery) : AnnotStore × CQuery :=
  postprocess_clone s q q

/-- Modelled from the spec: the Bulk-Update Coordinator of the manager layer
(section 4.5) is not part of the provided sources (only its tests under
`tests/test_queries.py` are), so the resolution target of one update keyword
is taken from the spec: either an ordinary concrete column, or a queryable
property with an optional update-kwargs builder. -/
inductive UpdateTarget where
  | column
  | prop (builder : Option (Value → List (String × Value)))

/-- Modelled from the spec: the concrete column assignments contributed by a
single update keyword — the keyword itself for a concrete column, the result
of the update-kwargs builder for a property, and a configuration error for a
property lacking an update implementation. -/
def kwargAssigns (env : String → UpdateTarget) (name : String) (v : Value) :
    Except QPError (List (String × Value)) :=
  match env name with
  | .column => .ok [(name, v)]
  | .prop none => .error (.missingUpdater name)
  | .prop (some builder) => .ok (builder v)

/-- Value lookup in a merged column-assignment mapping. -/
def colGet (m : List (String × Value)) (c : String) : Option Value :=
  (m.find? (fun p => p.1 = c)).map (fun p => p.2)

/-- Modelled from the spec: merge one column assignment into the accumulated
mapping, failing when a different value was already assigned to the column. -/
def mergeAssign (acc : List (String × Value)) (c : String) (v : Value) :
    Except QPError (List (String × Value)) :=
  match colGet acc c with
  | some v0 => if v0 = v then .ok acc else .error (.conflictingValues c)
  | none => .ok (acc ++ [(c, v)])

/-- Modelled from the spec: merge a whole assignment mapping. -/
def mergeAssigns (acc : List (String × Value)) :
    List (String × Value) → Except QPError (List (String × Value))
  | [] => .ok acc
  | (c, v) :: rest =>
    match mergeAssign acc c v with
    | .error e => .error e
    | .ok acc1 => mergeAssigns acc1 rest

/-- Modelled from the spec: resolve all update keywords into one merged
column-assignment mapping, raising on any conflicting assignment. -/
def resolveUpdateKwargs (env : String → UpdateTarget) (acc : List (String × Value)) :
    List (String × Value) → Except QPError (List (String × Value))
  | [] => .ok acc
  | (name, v) :: rest =>
    match kwargAssigns env name v with
    | .error e => .error e
    | .ok assigns =>
      match mergeAssigns acc assigns with
      | .error e => .error e
      | .ok acc1 => resolveUpdateKwargs env acc1 rest

/-- A database row: an assignment of values to column names. -/
abbrev Row := List (String × Value)

/-- Dict assignment on a row. -/
def rowSet (row : Row) (c : String) (v : Value) : Row :=
  if row.any (fun p => p.1 = c) then
    row.map (fun p => if p.1 = c then (c, v) else p)
  else
    row ++ [(c, v)]

/-- The single native bulk UPDATE: apply every merged column assignment to
every row. -/
def nativeUpdate (db : List Row) (assigns : List (String × Value)) : List Row :=
  db.map (fun row => assigns.foldl (fun r p => rowSet r p.1 p.2) row)

/-- Modelled from the spec: the bulk-update entry point — resolve and merge
all keyword assignments, and only when that succeeds issue the single native
UPDATE.  The returned pair is the database after the call and the raised
error, if any. -/
def qp_update (env : String → UpdateTarget) (db : List Row)
    (kwargs : List (String × Value)) : List Row × Option QPError :=
  match resolveUpdateKwargs env [] kwargs with
  | .error e => (db, some e)
  | .ok assigns => (nativeUpdate db assigns, none)

/-- A sample aggregate-backed property that requires annotation for
filtering, used to instantiate the theorems below on concrete inputs. -/
def exProp : QueryableProperty :=
  { id := 0, name := "p", filterRequiresAnnot := true }

/-- The reference to `exProp` on the root model. -/
def exRef : PropertyRef := { prop := exProp, relPath := [] }

/-- A sample property reached through a relation, for the relation-path
theorems. -/
def exRelRef : PropertyRef := { prop := exProp, relPath := ["application"] }

/-- The sample resolved annotation expression of `exProp`. -/
def exAnn : Expr := { id := 1, isAggregate := true }

/-- A concrete environment: `p` resolves to `exRef` with an `exact` lookup,
its filter implementation references the property itself, and the framework
base implementations are simple concrete functions. -/
def exEnv : QPEnv :=
  { resolve := fun path => if path = ["p"] then some (exRef, ["exact"]) else none
  , get_annot := fun _ => exAnn
  , get_filter := fun _ _ v => .leaf "p" v
  , native := fun ns fe => .ok (ns + 1, .ofNative fe)
  , nativeResolveRef := fun _ _ => 7
  , nativeNamesToPath := fun ns => ns.length }

/-- A freshly initialized concrete query. -/
def exQ : QPQuery :=
  { qpAnnots := [], qpStack := [], useMarker := false, annots := [],
    annotSelectMask := none, groupBy := .initial, nativeState := 0 }

/-- The concrete query state after annotating `exRef` on `exQ`. -/
def exQ1 : QPQuery :=
  { qpAnnots := [exRef], qpStack := [], useMarker := false,
    annots := [("p", exAnn)], annotSelectMask := some [],
    groupBy := .recomputed, nativeState := 0 }

/-- A concrete query whose stack top is `exRef`. -/
def exQStack : QPQuery := { exQ with qpStack := [exRef] }

/-- A concrete query whose stack top is the relation-reached `exRelRef`. -/
def exQRel : QPQuery := { exQ with qpStack := [exRelRef] }

/-- A concrete compiler with the result-marking mixin injected. -/
def exCompiler : SQLCompiler := { hasMarkerMixin := true, annotColMap := [] }

/-- A concrete update environment: `major_minor` is a queryable property
whose update-kwargs builder assigns both version components, everything else
is a concrete column. -/
def updEnv : String → UpdateTarget := fun name =>
  if name = "major_minor" then
    .prop (some (fun _ => [("major", .int 42), ("minor", .int 42)]))
  else
    .column

/-- A concrete one-row database. -/
def exDb : List Row := [[("major", Value.int 1), ("minor", Value.int 3)]]

/-- The concrete query state produced by building the `p` filter on `exQ`
(annotation registered, alias unselected, native handling of the inner
self-reference). -/
def exQBF : QPQuery := { exQ1 with nativeState := 1 }

theorem mem_keysOf_assocSet_self (m : List (String × Expr)) (k : String) (v : Expr) :
    k ∈ keysOf (assocSet m k v) := by
  unfold assocSet keysOf
  by_cases h : m.any (fun p => p.1 = k)
  · rw [if_pos h]
    rcases List.any_eq_true.mp h with ⟨p, hp, hpk⟩
    exact List.mem_map.mpr ⟨(k, v), List.mem_map.mpr ⟨p, hp, by simp [decide_eq_true_eq.mp hpk]⟩, rfl⟩
  · rw [if_neg h]
    simp

theorem mem_keysOf_assocSet_of_mem (m : List (String × Expr)) (k k' : String) (v : Expr)
    (h : k' ∈ keysOf m) : k' ∈ keysOf (assocSet m k v) := by
  unfold assocSet keysOf
  rcases List.mem_map.mp h with ⟨p, hp, hpk⟩
  by_cases hc : m.any (fun p => p.1 = k)
  · rw [if_pos hc]
    by_cases hk : p.1 = k
    · exact List.mem_map.mpr ⟨(k, v), List.mem_map.mpr ⟨p, hp, by simp [hk]⟩, by
        simp [← hpk, hk]⟩
    · exact List.mem_map.mpr ⟨p, List.mem_map.mpr ⟨p, hp, by simp [hk]⟩, hpk⟩
  · rw [if_neg hc]
    exact List.mem_map.mpr ⟨p, List.mem_append_left _ hp, hpk⟩

theorem find_replace_self (k : String) (v : Expr) :
    ∀ (m : List (String × Expr)) (p : String × Expr), p ∈ m → p.1 = k →
      ((m.map (fun p => if p.1 = k then (k, v) else p)).find?
        (fun p => p.1 = k)).map (fun p => p.2) = some v := by
  intro m
  induction m with
  | nil => intro p hp _; cases hp
  | cons hd tl ih =>
    intro p hp hpk
    by_cases hhd : hd.1 = k
    · simp [List.find?, hhd]
    · rcases List.mem_cons.mp hp with rfl | htl
      · exact absurd hpk hhd
      · simpa [List.find?, hhd] using ih p htl hpk

theorem find_append_fresh (k : String) (v : Expr) :
    ∀ (m : List (String × Expr)), (∀ p ∈ m, ¬ p.1 = k) →
      ((m ++ [(k, v)]).find? (fun p => p.1 = k)).map (fun p => p.2) = some v := by
  intro m
  induction m with
  | nil => intro _; simp [List.find?]
  | cons hd tl ih =>
    intro h
    have hhd : ¬ hd.1 = k := h hd (List.mem_cons_self hd tl)
    simpa [List.find?, hhd] using ih (fun p hp => h p (List.mem_cons_of_mem hd hp))

theorem assocGet_assocSet_self (m : List (String × Expr)) (k : String) (v : Expr) :
    assocGet (assocSet m k v) k = some v := by
  unfold assocSet assocGet
  by_cases h : m.any (fun p => p.1 = k)
  · rw [if_pos h]
    rcases List.any_eq_true.mp h with ⟨p, hp, hpk⟩
    exact find_replace_self k v m p hp (decide_eq_true_eq.mp hpk)
  · rw [if_neg h]
    refine find_append_fresh k v m ?_
    intro p hp hpk
    exact h (List.any_eq_true.mpr ⟨p, hp, decide_eq_true hpk⟩)

theorem qpEnterState_qpStack (env : QPEnv) (q : QPQuery) (ref : PropertyRef) (select : Bool) :
    (qpEnterState env q ref select).qpStack = ref :: q.qpStack := by
  unfold qpEnterState
  by_cases ha : ref ∈ q.qpAnnots <;>
    simp [ha, addAnnot, setAnnotMask] <;>
    split <;> simp [setAnnotMask, addAnnot] <;> split <;> simp

theorem qpEnterState_useMarker (env : QPEnv) (q : QPQuery) (ref : PropertyRef) (select : Bool) :
    (qpEnterState env q ref select).useMarker = q.useMarker := by
  unfold qpEnterState
  by_cases ha : ref ∈ q.qpAnnots <;>
    simp [ha, addAnnot, setAnnotMask] <;>
    split <;> simp [setAnnotMask, addAnnot] <;> split <;> simp

theorem qpEnterState_groupBy (env : QPEnv) (q : QPQuery) (ref : PropertyRef) (select : Bool) :
    (qpEnterState env q ref select).groupBy = q.groupBy := by
  unfold qpEnterState
  by_cases ha : ref ∈ q.qpAnnots <;>
    simp [ha, addAnnot, setAnnotMask] <;>
    split <;> simp [setAnnotMask, addAnnot] <;> split <;> simp

theorem qpEnterState_nativeState (env : QPEnv) (q : QPQuery) (ref : PropertyRef) (select : Bool) :
    (qpEnterState env q ref select).nativeState = q.nativeState := by
  unfold qpEnterState
  by_cases ha : ref ∈ q.qpAnnots <;>
    simp [ha, addAnnot, setAnnotMask] <;>
    split <;> simp [setAnnotMask, addAnnot] <;> split <;> simp

theorem qpEnter_ok_iff (env : QPEnv) (q : QPQuery) (ref : PropertyRef) (select : Bool)
    (q1 : QPQuery) (e : Expr) :
    qpEnter env q ref select = .ok (q1, e) ↔
      ref ∉ q.qpStack ∧ q1 = qpEnterState env q ref select ∧
        assocGet (qpEnterState env q ref select).annots (qpAlias ref) = some e := by
  unfold qpEnter
  constructor
  · intro h
    by_cases hmem : ref ∈ q.qpStack
    · rw [if_pos hmem] at h; cases h
    · rw [if_neg hmem] at h
      refine ⟨hmem, ?_⟩
      cases hg : assocGet (qpEnterState env q ref select).annots (qpAlias ref) with
      | none => rw [hg] at h; cases h
      | some ann =>
        rw [hg] at h
        cases h
        exact ⟨rfl, rfl⟩
  · rintro ⟨hmem, rfl, hg⟩
    rw [if_neg hmem, hg]

theorem qpEnterState_fresh (env : QPEnv) (q : QPQuery) (ref : PropertyRef)
    (ha : ref ∉ q.qpAnnots) :
    qpEnterState env q ref false =
      { q with qpStack := ref :: q.qpStack,
               qpAnnots := listInsert ref q.qpAnnots,
               annots := assocSet q.annots (qpAlias ref) (env.get_annot ref),
               annotSelectMask := some (maskBase q) } := by
  unfold qpEnterState
  simp [ha, addAnnot, setAnnotMask]
  split <;> simp [setAnnotMask]

theorem qpEnterState_already (env : QPEnv) (q : QPQuery) (ref : PropertyRef)
    (ha : ref ∈ q.qpAnnots) :
    qpEnterState env q ref false = { q with qpStack := ref :: q.qpStack } := by
  unfold qpEnterState
  simp [ha]

theorem qpEnterState_mask_not_select (env : QPEnv) (q : QPQuery) (ref : PropertyRef)
    (S : List String) (h : q.annotSelectMask = some S) :
    (qpEnterState env q ref false).annotSelectMask = some S := by
  by_cases ha : ref ∈ q.qpAnnots
  · rw [qpEnterState_already env q ref ha]
    exact h
  · rw [qpEnterState_fresh env q ref ha]
    simp [maskBase, h]

theorem qpEnterState_keys_mono (env : QPEnv) (q : QPQuery) (ref : PropertyRef)
    (select : Bool) (k : String) (h : k ∈ keysOf q.annots) :
    k ∈ keysOf (qpEnterState env q ref select).annots := by
  unfold qpEnterState
  by_cases ha : ref ∈ q.qpAnnots
  · simp only [ha, if_true]
    split <;> simp [setAnnotMask, h]
  · simp only [ha, if_false]
    split <;> simp [addAnnot, setAnnotMask, listInsert] <;>
      first
        | exact mem_keysOf_assocSet_of_mem _ _ _ _ h
        | (split <;> exact mem_keysOf_assocSet_of_mem _ _ _ _ h)

theorem qpExit_fields (q : QPQuery) (ann : Expr) (fgb : Bool) :
    (qpExit q ann fgb).qpStack = q.qpStack.tail ∧
    (qpExit q ann fgb).qpAnnots = q.qpAnnots ∧
    (qpExit q ann fgb).useMarker = q.useMarker ∧
    (qpExit q ann fgb).annots = q.annots ∧
    (qpExit q ann fgb).annotSelectMask = q.annotSelectMask ∧
    (qpExit q ann fgb).nativeState = q.nativeState := by
  unfold qpExit
  by_cases hag : ann.isAggregate <;> simp [hag]
  split <;> simp

/-- Claim C2: annotating a reference already on the property stack raises the
circular-dependency error immediately (the `Except` error carries no mutated
state: the raise precedes any push or registration), and any successful entry
pushed a reference that was not yet on the stack, so a stack without
duplicates never acquires one. -/
theorem c2_circular_dependency_guard (env : QPEnv) (q : QPQuery) (ref : PropertyRef)
    (select : Bool) :
    (ref ∈ q.qpStack →
      qpEnter env q ref select = .error (.circularDependency ref.prop.name)) ∧
    (∀ q1 e, qpEnter env q ref select = .ok (q1, e) →
      ref ∉ q.qpStack ∧ q1.qpStack = ref :: q.qpStack ∧
        (q.qpStack.Nodup → q1.qpStack.Nodup)) := by
  constructor
  · intro h
    unfold qpEnter
    rw [if_pos h]
  · intro q1 e h
    rcases (qpEnter_ok_iff env q ref select q1 e).mp h with ⟨hmem, rfl, _⟩
    refine ⟨hmem, qpEnterState_qpStack env q ref select, ?_⟩
    intro hnd
    rw [qpEnterState_qpStack env q ref select]
    exact List.nodup_cons.mpr ⟨hmem, hnd⟩

/-- Closed instance of the C2 theorem: with `exRef` already on the stack the
guard raises, and entering on an empty stack keeps the stack duplicate-free. -/
theorem c2_witness :
    qpEnter exEnv { exQ with qpStack := [exRef] } exRef false =
      .error (.circularDependency exRef.prop.name) ∧
    ([] : List PropertyRef).Nodup := by
  refine ⟨(c2_circular_dependency_guard exEnv { exQ with qpStack := [exRef] } exRef false).1
    (by decide), by decide⟩

theorem listInsert_self_mem (r : PropertyRef) (s : List PropertyRef) :
    r ∈ listInsert r s := by
  unfold listInsert
  split
  · assumption
  · exact List.mem_cons_self r s

theorem assocSet_fresh (m : List (String × Expr)) (k : String) (v : Expr)
    (h : ¬ k ∈ keysOf m) : assocSet m k v = m ++ [(k, v)] := by
  unfold assocSet
  rw [if_neg]
  intro hc
  rcases List.any_eq_true.mp hc with ⟨p, hp, hpk⟩
  exact h (List.mem_map.mpr ⟨p, hp, decide_eq_true_eq.mp hpk⟩)

theorem annotateRef_fresh_eq (env : QPEnv) (q : QPQuery) (ref : PropertyRef) (fgb : Bool)
    (hstack : ref ∉ q.qpStack) (hannot : ref ∉ q.qpAnnots) :
    annotateRef env q ref fgb =
      .ok ({ q with qpAnnots := listInsert ref q.qpAnnots,
                    annots := assocSet q.annots (qpAlias ref) (env.get_annot ref),
                    annotSelectMask := some (maskBase q),
                    groupBy := if (env.get_annot ref).isAggregate then
                        (if fgb then .allFields else .recomputed) else q.groupBy },
            env.get_annot ref) := by
  unfold annotateRef
  have henter : qpEnter env q ref false =
      .ok (qpEnterState env q ref false, env.get_annot ref) := by
    refine (qpEnter_ok_iff env q ref false _ _).mpr ⟨hstack, rfl, ?_⟩
    rw [qpEnterState_fresh env q ref hannot]
    exact assocGet_assocSet_self q.annots (qpAlias ref) (env.get_annot ref)
  rw [henter]
  rw [qpEnterState_fresh env q ref hannot]
  unfold qpExit
  by_cases hag : (env.get_annot ref).isAggregate <;> by_cases hf : fgb <;> simp [hag, hf]

theorem annotateRef_already_fix (env : QPEnv) (q1 : QPQuery) (ref : PropertyRef) (fgb : Bool)
    (hstack : ref ∉ q1.qpStack) (hannot : ref ∈ q1.qpAnnots)
    (e1 : Expr) (hget : assocGet q1.annots (qpAlias ref) = some e1)
    (hgb : e1.isAggregate = true →
      q1.groupBy = (if fgb then GroupBySetting.allFields else GroupBySetting.recomputed)) :
    annotateRef env q1 ref fgb = .ok (q1, e1) := by
  unfold annotateRef
  have henter : qpEnter env q1 ref false = .ok (qpEnterState env q1 ref false, e1) := by
    refine (qpEnter_ok_iff env q1 ref false _ _).mpr ⟨hstack, rfl, ?_⟩
    rw [qpEnterState_already env q1 ref hannot]
    exact hget
  rw [henter]
  rw [qpEnterState_already env q1 ref hannot]
  unfold qpExit
  by_cases hag : e1.isAggregate
  · have h2 := hgb hag
    by_cases hf : fgb
    · have h2a : q1.groupBy = GroupBySetting.allFields := by simpa [hf] using h2
      simp only [hag, hf, if_true, List.tail_cons]
      simp [← h2a]
    · have h2a : q1.groupBy = GroupBySetting.recomputed := by simpa [hf] using h2
      simp only [hag, hf, if_false, List.tail_cons]
      simp [← h2a]
  · simp [hag]

/-- Claim C3: annotating the same property reference twice within one query is
idempotent — after a first registration the alias occurs exactly once in the
annotation map, and a second annotation pass returns the identical query
state and the identical expression already registered under the alias derived
from the full reference path, so any number of further attempts registers
nothing new. -/
theorem c3_annotate_idempotent (env : QPEnv) (q : QPQuery) (ref : PropertyRef) (fgb : Bool)
    (hstack : ref ∉ q.qpStack) (hannot : ref ∉ q.qpAnnots)
    (hkey : ¬ qpAlias ref ∈ keysOf q.annots) :
    ∀ q1 e1, annotateRef env q ref fgb = .ok (q1, e1) →
      (keysOf q1.annots).count (qpAlias ref) = 1 ∧
        annotateRef env q1 ref fgb = .ok (q1, e1) := by
  intro q1 e1 h
  rw [annotateRef_fresh_eq env q ref fgb hstack hannot] at h
  cases h
  constructor
  · rw [assocSet_fresh q.annots (qpAlias ref) (env.get_annot ref) hkey]
    simp only [keysOf, List.map_append, List.map_cons, List.map_nil]
    rw [List.count_append]
    rw [List.count_eq_zero_of_not_mem (by simpa [keysOf] using hkey)]
    simp
  · refine annotateRef_already_fix env _ ref fgb (by simpa using hstack)
      (by simpa using listInsert_self_mem ref q.qpAnnots) _
      (by simpa using assocGet_assocSet_self q.annots (qpAlias ref) (env.get_annot ref)) ?_
    intro hag
    simp [hag]

/-- Closed instance of the C3 theorem: annotating `exRef` on the fresh query
`exQ` registers the alias `p` exactly once and a second pass is a no-op
returning the same state and expression. -/
theorem c3_witness :
    (keysOf exQ1.annots).count (qpAlias exRef) = 1 ∧
      annotateRef exEnv exQ1 exRef false = .ok (exQ1, exAnn) := by
  have h := c3_annotate_idempotent exEnv exQ exRef false (by decide) (by decide) (by decide)
    exQ1 exAnn (by rfl)
  exact h

theorem storeGet_append_lt (s : AnnotStore) (t : AnnotStore) (i : Nat)
    (hi : i < s.length) : storeGet (s ++ t) i = storeGet s i := by
  unfold storeGet
  rw [List.getD_eq_getElem?_getD, List.getD_eq_getElem?_getD]
  rw [List.getElem?_append, if_pos hi]

theorem storeGet_set_ne (s : AnnotStore) (i j : Nat) (x : List PropertyRef)
    (hij : i ≠ j) : storeGet (s.set i x) j = storeGet s j := by
  unfold storeGet
  rw [List.getD_eq_getElem?_getD, List.getD_eq_getElem?_getD]
  rw [List.getElem?_set_ne hij]

theorem storeGet_set_self (s : AnnotStore) (i : Nat) (x : List PropertyRef)
    (hi : i < s.length) : storeGet (s.set i x) i = x := by
  unfold storeGet
  rw [List.getD_eq_getElem?_getD]
  rw [List.getElem?_set_eq_of_lt x hi]
  rfl

theorem mem_refUnion_empty (t : List PropertyRef) (x : PropertyRef) :
    x ∈ refUnion [] t ↔ x ∈ t := by
  unfold refUnion
  simp

/-- Claim C1, amended: chaining a query yields a clone whose
annotated-properties set object is a fresh, independent copy with the same
members as the source set (mutating either set object afterwards leaves the
other untouched), and whose property stack is empty; however the marker
flag of the clone is re-initialized to `False` by `init_injected_attrs`
rather than preserved from the source. -/
theorem c1_chain_state (s : AnnotStore) (q : CQuery) (hq : q.qpaId < s.length) :
    (∀ x, x ∈ storeGet (chain s q).1 (chain s q).2.qpaId ↔ x ∈ storeGet s q.qpaId) ∧
    (chain s q).2.qpaId ≠ q.qpaId ∧
    (∀ x, storeGet ((chain s q).1.set (chain s q).2.qpaId x) q.qpaId =
        storeGet (chain s q).1 q.qpaId) ∧
    (∀ x, storeGet ((chain s q).1.set q.qpaId x) (chain s q).2.qpaId =
        storeGet (chain s q).1 (chain s q).2.qpaId) ∧
    (chain s q).2.qpStack = [] ∧
    (chain s q).2.useMarker = false := by
  have hchain : chain s q =
      ((s ++ [[], []]).set (s.length + 1)
          (refUnion (storeGet (s ++ [[], []]) (s.length + 1)) (storeGet (s ++ [[], []]) q.qpaId)),
        { qpaId := s.length + 1, qpStack := [], useMarker := false }) := by
    show postprocess_clone s q q = _
    unfold postprocess_clone init_injected_attrs
    simp [List.append_assoc]
  have hids : s.length + 1 ≠ q.qpaId := by omega
  have hsrc1 : storeGet (s ++ [[], []]) q.qpaId = storeGet s q.qpaId :=
    storeGet_append_lt s [[], []] q.qpaId hq
  have hfresh : storeGet (s ++ [[], []]) (s.length + 1) = [] := by
    unfold storeGet
    rw [List.getD_eq_getElem?_getD]
    rw [List.getElem?_append_right (by omega)]
    simp
  have hlen : s.length + 1 < (s ++ [[], []]).length := by
    simp
  refine ⟨?_, ?_, ?_, ?_, ?_, ?_⟩
  · intro x
    rw [hchain]
    simp only
    rw [storeGet_set_self _ _ _ hlen, hfresh, hsrc1]
    exact mem_refUnion_empty _ x
  · rw [hchain]
    exact hids
  · intro x
    rw [hchain]
    simp only
    rw [storeGet_set_ne _ _ _ _ hids, storeGet_set_ne _ _ _ _ hids]
  · intro x
    rw [hchain]
    simp only
    rw [storeGet_set_ne _ _ _ _ (Ne.symm hids)]
  · rw [hchain]
  · rw [hchain]

/-- Closed instance of the amended C1 theorem at a concrete store and query
carrying one annotated reference. -/
theorem c1_witness :
    (∀ x, x ∈ storeGet (chain [[exRef]] { qpaId := 0, qpStack := [exRef], useMarker := true }).1
        (chain [[exRef]] { qpaId := 0, qpStack := [exRef], useMarker := true }).2.qpaId ↔
        x ∈ storeGet [[exRef]] 0) ∧
    (chain [[exRef]] { qpaId := 0, qpStack := [exRef], useMarker := true }).2.qpStack = [] := by
  have h := c1_chain_state [[exRef]] { qpaId := 0, qpStack := [exRef], useMarker := true }
    (by decide)
  exact ⟨h.1, h.2.2.2.2.1⟩

/-- Counterexample to claim C1 as stated: for a source query whose
`use_marker` flag is set, the marker flag of the chained clone does not
equal the source value — `_postprocess_clone` re-initializes it to `False`. -/
theorem c1_counterexample :
    ¬ ((chain [[exRef]] { qpaId := 0, qpStack := [], useMarker := true }).2.useMarker =
        ({ qpaId := 0, qpStack := [], useMarker := true } : CQuery).useMarker) := by
  decide

theorem odSet_head (m : List (String × Int)) (k' : String) (v' : Int)
    (k : String) (v : Int) (h : m.head? = some (k, v)) (hne : ¬ k = k') :
    (odSet m k' v').head? = some (k, v) := by
  cases m with
  | nil => cases h
  | cons hd tl =>
    have hhd : hd = (k, v) := by simpa using h
    subst hhd
    unfold odSet
    split
    · simp [hne]
    · simp

theorem odUpdate_head (old : List (String × Int)) :
    ∀ (base : List (String × Int)) (k : String) (v : Int),
      base.head? = some (k, v) → (¬ k ∈ old.map (fun p => p.1)) →
      (odUpdate base old).head? = some (k, v) := by
  induction old with
  | nil =>
    intro base k v hb _
    exact hb
  | cons hd tl ih =>
    intro base k v hb hk
    have hne : ¬ k = hd.1 := by
      intro he
      exact hk (List.mem_map.mpr ⟨hd, List.mem_cons_self hd tl, he.symm⟩)
    have hk2 : ¬ k ∈ tl.map (fun p => p.1) := by
      intro hm
      exact hk (List.mem_cons_of_mem _ hm)
    exact ih (odSet base hd.1 hd.2) k v (odSet_head base hd.1 hd.2 k v hb hne) hk2

/-- Claim C6: when the marker is active, each compiled-query row gains exactly
one extra value, the fixed boolean `True` — appended last for regular
compilation (whose column map carries the marker as its first entry, at index
`-1`) and prepended first for raw-query iteration — while the number of rows
and all original values in each row are unchanged. -/
theorem c6_marker_row_shape (c : SQLCompiler) (q : QPQuery)
    (rows rrows : List (List Value)) (colMap : List (String × Int))
    (hc : c.hasMarkerMixin = true) (hm : q.useMarker = true)
    (hk : ¬ QP_MARKER ∈ colMap.map (fun p => p.1)) :
    (results_iter c rows).length = rows.length ∧
    (∀ i : Nat, (results_iter c rows)[i]? =
        (rows[i]?).map (fun row => row ++ [Value.bool true])) ∧
    (raw_query_iter q rrows).length = rrows.length ∧
    (∀ i : Nat, (raw_query_iter q rrows)[i]? =
        (rrows[i]?).map (fun row => Value.bool true :: row)) ∧
    (setup_query_col_map colMap).head? = some (QP_MARKER, -1) := by
  refine ⟨?_, ?_, ?_, ?_, ?_⟩
  · unfold results_iter
    rw [if_pos hc]
    exact List.length_map rows _
  · intro i
    unfold results_iter
    rw [if_pos hc]
    rw [List.getElem?_map]
  · unfold raw_query_iter
    exact List.length_map rrows _
  · intro i
    unfold raw_query_iter
    rw [List.getElem?_map]
    cases rrows[i]? with
    | none => rfl
    | some row => simp [hm]
  · exact odUpdate_head colMap [(QP_MARKER, -1)] QP_MARKER (-1) rfl hk

/-- Closed instance of the C6 theorem at a one-row result set and a one-entry
column map. -/
theorem c6_witness :
    (results_iter exCompiler [[Value.int 5]]).length = 1 ∧
    (setup_query_col_map [("x", 0)]).head? = some (QP_MARKER, -1) := by
  have h := c6_marker_row_shape exCompiler { exQ with useMarker := true }
    [[Value.int 5]] [[Value.int 5]] [("x", 0)] rfl rfl (by decide)
  exact ⟨h.1, h.2.2.2.2⟩

/-- Claim C7: `get_compiler` attaches the result-marking mixin exactly when
the marker flag was set at the moment of the call, resets the flag to `False`
(consuming it), so an immediate second call attaches nothing, and a call
after the flag has been set again attaches the mixin again. -/
theorem c7_get_compiler_consumes_marker (q : QPQuery) (m m2 m3 : List (String × Int)) :
    (get_compiler q m).2.hasMarkerMixin = q.useMarker ∧
    (get_compiler q m).1.useMarker = false ∧
    (get_compiler (get_compiler q m).1 m2).2.hasMarkerMixin = false ∧
    (get_compiler { (get_compiler q m).1 with useMarker := true } m3).2.hasMarkerMixin
      = true := by
  unfold get_compiler
  by_cases h : q.useMarker <;> simp [h]

/-- Claim C5: when the filter path resolves to the property reference at the
top of the query property stack, `build_filter` delegates the unchanged
expression to the framework base implementation — the equation pins the
result to the native call alone, so the property filter implementation is
never invoked and the self-recursion stops after one level. -/
theorem c5_stack_top_delegates_native (env : QPEnv) (fuel : Nat) (q : QPQuery)
    (fe : FilterExpr) (arg : String) (v : Value) (ref : PropertyRef)
    (lookups : List String)
    (hu : fe.unpack = some (arg, v))
    (hr : env.resolve (QueryPath.parse arg) = some (ref, lookups))
    (hs : q.qpStack.head? = some ref) :
    build_filter env (fuel + 1) q fe = nativeBF env q fe := by
  unfold build_filter
  simp only [hu, hr]
  rw [if_pos hs]

/-- Closed instance of the C5 theorem: with `exRef` on top of the stack,
filtering by `p` is handled natively. -/
theorem c5_witness :
    build_filter exEnv 1 exQStack (.pair "p" (.int 1)) =
      nativeBF exEnv exQStack (.pair "p" (.int 1)) := by
  exact c5_stack_top_delegates_native exEnv 0 exQStack (.pair "p" (.int 1)) "p"
    (.int 1) exRef ["exact"] rfl (by decide) (by decide)

/-- Claim C10: a filter expression that cannot be unpacked into an
`(argument, value)` pair is treated as involving no queryable property and is
delegated unchanged to the framework base implementation; the only error the
call can surface is the one of the framework itself. -/
theorem c10_unpack_failure_delegates (env : QPEnv) (fuel : Nat) (q : QPQuery)
    (fe : FilterExpr) (hu : fe.unpack = none) :
    build_filter env (fuel + 1) q fe = nativeBF env q fe ∧
    (∀ e, build_filter env (fuel + 1) q fe = .error e → ∃ n, e = .fromNative n) := by
  have hdeleg : build_filter env (fuel + 1) q fe = nativeBF env q fe := by
    unfold build_filter
    rw [hu]
  refine ⟨hdeleg, ?_⟩
  intro e he
  rw [hdeleg] at he
  unfold nativeBF at he
  cases hn : env.native q.nativeState fe with
  | error n =>
    rw [hn] at he
    cases he
    exact ⟨n, rfl⟩
  | ok pr =>
    rw [hn] at he
    cases he

/-- Closed instance of the C10 theorem: a `Q`-object-like non-pair filter
expression is handed to the framework base implementation unchanged. -/
theorem c10_witness :
    build_filter exEnv 1 exQ (.notIterable 0) = nativeBF exEnv exQ (.notIterable 0) := by
  exact (c10_unpack_failure_delegates exEnv 0 exQ (.notIterable 0) rfl).1

/-- Claim C9: while the property stack is non-empty, both `names_to_path` and
`resolve_ref` prepend the relation path of the top stack frame to the newly
parsed path before resolving it — `resolve_ref` resolves on the combined
path (while the fallback to the framework resolver keeps the original name),
so sibling field names inside a property implementation behave as if local
to the owning model. -/
theorem c9_relation_path_prepended (env : QPEnv) (q : QPQuery) (top : PropertyRef)
    (rest : List PropertyRef) (hs : q.qpStack = top :: rest) :
    (∀ names, names_to_path env q names = env.nativeNamesToPath (top.relPath ++ names)) ∧
    (∀ name summarize, resolve_ref env q name summarize =
      resolveRefCore env q (top.relPath ++ QueryPath.parse name) name summarize) := by
  constructor
  · intro names
    unfold names_to_path
    rw [hs]
  · intro name summarize
    unfold resolve_ref
    rw [hs]

/-- Closed instance of the C9 theorem: with the relation-reached reference on
top of the stack, a one-segment name is resolved under the `application`
relation path. -/
theorem c9_witness :
    names_to_path exEnv exQRel ["major"] =
      exEnv.nativeNamesToPath (exRelRef.relPath ++ ["major"]) ∧
    resolve_ref exEnv exQRel "major" false =
      resolveRefCore exEnv exQRel (exRelRef.relPath ++ QueryPath.parse "major")
        "major" false := by
  have h := c9_relation_path_prepended exEnv exQRel exRelRef [] (by rfl)
  exact ⟨h.1 ["major"], h.2 "major" false⟩

theorem nativeBF_ok_frame (env : QPEnv) (q : QPQuery) (fe : FilterExpr)
    (q' : QPQuery) (c : Clause) (h : nativeBF env q fe = .ok (q', c)) :
    q'.annotSelectMask = q.annotSelectMask ∧ q'.annots = q.annots ∧
    q'.qpStack = q.qpStack ∧ q'.qpAnnots = q.qpAnnots := by
  unfold nativeBF at h
  cases hn : env.native q.nativeState fe with
  | error n => rw [hn] at h; cases h
  | ok pr =>
    obtain ⟨ns, c0⟩ := pr
    rw [hn] at h
    cases h
    exact ⟨rfl, rfl, rfl, rfl⟩

theorem add_q_mask_keys (bf : QPQuery → FilterExpr → Except QPError (QPQuery × Clause))
    (hbf : ∀ q fe q' c, bf q fe = .ok (q', c) →
      (∀ S, q.annotSelectMask = some S → q'.annotSelectMask = some S) ∧
      (∀ k, k ∈ keysOf q.annots → k ∈ keysOf q'.annots)) :
    ∀ (node : QNode) (q q' : QPQuery) (c : Clause), add_q bf q node = .ok (q', c) →
      (∀ S, q.annotSelectMask = some S → q'.annotSelectMask = some S) ∧
      (∀ k, k ∈ keysOf q.annots → k ∈ keysOf q'.annots) := by
  intro node
  induction node with
  | leaf path v =>
    intro q q' c h
    exact hbf q (.pair path v) q' c h
  | conj l r ihl ihr =>
    intro q q' c h
    unfold add_q at h
    cases hl : add_q bf q l with
    | error e => rw [hl] at h; cases h
    | ok pr =>
      obtain ⟨q1, c1⟩ := pr
      simp only [hl] at h
      cases hr2 : add_q bf q1 r with
      | error e => simp only [hr2] at h; cases h
      | ok pr2 =>
        obtain ⟨q2, c2⟩ := pr2
        simp only [hr2] at h
        rw [Except.ok.injEq, Prod.mk.injEq] at h
        obtain ⟨hq, hc⟩ := h
        subst hq
        have H1 := ihl q q1 c1 hl
        have H2 := ihr q1 q2 c2 hr2
        exact ⟨fun S hS => H2.1 S (H1.1 S hS), fun k hk => H2.2 k (H1.2 k hk)⟩

theorem build_filter_mask_keys (env : QPEnv) :
    ∀ (fuel : Nat) (q : QPQuery) (fe : FilterExpr) (q' : QPQuery) (c : Clause),
      build_filter env fuel q fe = .ok (q', c) →
      (∀ S, q.annotSelectMask = some S → q'.annotSelectMask = some S) ∧
      (∀ k, k ∈ keysOf q.annots → k ∈ keysOf q'.annots) := by
  intro fuel
  induction fuel with
  | zero =>
    intro q fe q' c h
    cases h
  | succ fuel ih =>
    intro q fe q' c h
    unfold build_filter at h
    cases hu : fe.unpack with
    | none =>
      simp only [hu] at h
      have hf := nativeBF_ok_frame env q fe q' c h
      exact ⟨fun S hS => by rw [hf.1]; exact hS, fun k hk => by rw [hf.2.1]; exact hk⟩
    | some pr =>
      obtain ⟨arg, v⟩ := pr
      simp only [hu] at h
      cases hres : env.resolve (QueryPath.parse arg) with
      | none =>
        simp only [hres] at h
        have hf := nativeBF_ok_frame env q fe q' c h
        exact ⟨fun S hS => by rw [hf.1]; exact hS, fun k hk => by rw [hf.2.1]; exact hk⟩
      | some pr2 =>
        obtain ⟨ref, lookups⟩ := pr2
        simp only [hres] at h
        by_cases hguard : q.qpStack.head? = some ref
        · rw [if_pos hguard] at h
          have hf := nativeBF_ok_frame env q fe q' c h
          exact ⟨fun S hS => by rw [hf.1]; exact hS, fun k hk => by rw [hf.2.1]; exact hk⟩
        · rw [if_neg hguard] at h
          by_cases hfrq : ref.prop.filterRequiresAnnot
          · simp only [hfrq, if_true] at h
            cases he : qpEnter env q ref false with
            | error e => rw [he] at h; cases h
            | ok pr3 =>
              obtain ⟨q1, ann⟩ := pr3
              simp only [he] at h
              cases ha : add_q (build_filter env fuel) q1 (env.get_filter ref lookups v) with
              | error e => simp only [ha] at h; cases h
              | ok pr4 =>
                obtain ⟨q2, c2⟩ := pr4
                simp only [ha] at h
                rw [Except.ok.injEq, Prod.mk.injEq] at h
                obtain ⟨hq, hc⟩ := h
                subst hq
                rcases (qpEnter_ok_iff env q ref false q1 ann).mp he with ⟨_, rfl, _⟩
                have H1 : (∀ S, q.annotSelectMask = some S →
                    (qpEnterState env q ref false).annotSelectMask = some S) ∧
                    (∀ k, k ∈ keysOf q.annots →
                      k ∈ keysOf (qpEnterState env q ref false).annots) :=
                  ⟨fun S hS => qpEnterState_mask_not_select env q ref S hS,
                   fun k hk => qpEnterState_keys_mono env q ref false k hk⟩
                have H2 := add_q_mask_keys (build_filter env fuel)
                  (fun q fe q' c hbf => ih q fe q' c hbf) _ _ q2 c2 ha
                have HE := qpExit_fields q2 ann false
                refine ⟨fun S hS => ?_, fun k hk => ?_⟩
                · rw [HE.2.2.2.2.1]
                  exact H2.1 S (H1.1 S hS)
                · rw [keysOf, HE.2.2.2.1, ← keysOf]
                  exact H2.2 k (H1.2 k hk)
          · simp only [hfrq, if_false] at h
            exact add_q_mask_keys (build_filter env fuel)
              (fun q fe q' c hbf => ih q fe q' c hbf) _ q q' c h

/-- Claim C4: building a filter on a property with
`filterRequiresAnnot` registers the property annotation (before the
filter expression itself is processed) and keeps its alias out of the
annotation selection mask, since selection is never requested on the filter
path. -/
theorem c4_annotated_but_not_selected (env : QPEnv) (fuel : Nat) (q : QPQuery)
    (fe : FilterExpr) (arg : String) (v : Value) (ref : PropertyRef)
    (lookups : List String) (q' : QPQuery) (c : Clause)
    (hu : fe.unpack = some (arg, v))
    (hres : env.resolve (QueryPath.parse arg) = some (ref, lookups))
    (hfrq : ref.prop.filterRequiresAnnot = true)
    (hstack : ref ∉ q.qpStack)
    (hannot : ref ∉ q.qpAnnots)
    (hkey : ¬ qpAlias ref ∈ keysOf q.annots)
    (hmask : ∀ S, q.annotSelectMask = some S → ¬ qpAlias ref ∈ S)
    (hok : build_filter env (fuel + 1) q fe = .ok (q', c)) :
    qpAlias ref ∈ keysOf q'.annots ∧
    ∃ S, q'.annotSelectMask = some S ∧ ¬ qpAlias ref ∈ S := by
  have hguard : ¬ q.qpStack.head? = some ref := by
    intro hh
    cases hsq : q.qpStack with
    | nil => rw [hsq] at hh; cases hh
    | cons a t =>
      rw [hsq] at hh hstack
      simp only [List.head?_cons, Option.some.injEq] at hh
      subst hh
      exact hstack (List.mem_cons_self _ _)
  unfold build_filter at hok
  simp only [hu, hres] at hok
  rw [if_neg hguard] at hok
  simp only [hfrq, if_true] at hok
  have henter : qpEnter env q ref false =
      .ok (qpEnterState env q ref false, env.get_annot ref) := by
    refine (qpEnter_ok_iff env q ref false _ _).mpr ⟨hstack, rfl, ?_⟩
    rw [qpEnterState_fresh env q ref hannot]
    exact assocGet_assocSet_self q.annots (qpAlias ref) (env.get_annot ref)
  simp only [henter] at hok
  cases ha : add_q (build_filter env fuel) (qpEnterState env q ref false)
      (env.get_filter ref lookups v) with
  | error e => simp only [ha] at hok; cases hok
  | ok pr =>
    obtain ⟨q2, c2⟩ := pr
    simp only [ha] at hok
    rw [Except.ok.injEq, Prod.mk.injEq] at hok
    obtain ⟨hq, hc⟩ := hok
    subst hq
    have hS1mask : (qpEnterState env q ref false).annotSelectMask =
        some (maskBase q) := by
      rw [qpEnterState_fresh env q ref hannot]
    have hS1key : qpAlias ref ∈ keysOf (qpEnterState env q ref false).annots := by
      rw [qpEnterState_fresh env q ref hannot]
      exact mem_keysOf_assocSet_self q.annots (qpAlias ref) (env.get_annot ref)
    have hnotin : ¬ qpAlias ref ∈ maskBase q := by
      unfold maskBase
      cases hm : q.annotSelectMask with
      | none => exact hkey
      | some S => exact hmask S hm
    have H2 := add_q_mask_keys (build_filter env fuel)
      (fun a b c d hh => build_filter_mask_keys env fuel a b c d hh) _ _ q2 c2 ha
    have HE := qpExit_fields q2 (env.get_annot ref) false
    constructor
    · rw [keysOf, HE.2.2.2.1, ← keysOf]
      exact H2.2 _ hS1key
    · refine ⟨maskBase q, ?_, hnotin⟩
      rw [HE.2.2.2.2.1]
      exact H2.1 _ hS1mask

/-- Closed instance of the C4 theorem: filtering `exQ` by the
annotation-requiring property `p` yields a state whose annotation map has the
alias `p` while the selection mask excludes it. -/
theorem c4_witness :
    qpAlias exRef ∈ keysOf exQBF.annots ∧
      ∃ S, exQBF.annotSelectMask = some S ∧ ¬ qpAlias exRef ∈ S := by
  refine c4_annotated_but_not_selected exEnv 2 exQ (.pair "p" (.int 1)) "p" (.int 1)
    exRef ["exact"] exQBF (.ofNative (.pair "p" (.int 1))) rfl (by decide) rfl
    (by decide) (by decide) (by decide) ?_ (by rfl)
  intro S h
  simp [exQ] at h

theorem colGet_nil (c : String) : colGet [] c = none := rfl

theorem colGet_cons (hd : String × Value) (tl : List (String × Value)) (c : String) :
    colGet (hd :: tl) c = if hd.1 = c then some hd.2 else colGet tl c := by
  unfold colGet
  by_cases h : hd.1 = c <;> simp [List.find?, h]

theorem colGet_append (acc l : List (String × Value)) (c : String) :
    colGet (acc ++ l) c =
      match colGet acc c with
      | some v => some v
      | none => colGet l c := by
  induction acc with
  | nil => simp [colGet_nil]
  | cons hd tl ih =>
    rw [List.cons_append, colGet_cons, colGet_cons]
    by_cases h : hd.1 = c <;> simp [h, ih]

theorem mergeAssign_ok (acc : List (String × Value)) (c : String) (v : Value)
    (acc' : List (String × Value)) (h : mergeAssign acc c v = .ok acc') :
    (∀ c0 v0, colGet acc c0 = some v0 → colGet acc' c0 = some v0) ∧
    colGet acc' c = some v := by
  unfold mergeAssign at h
  cases hg : colGet acc c with
  | some v0 =>
    simp only [hg] at h
    by_cases hv : v0 = v
    · rw [if_pos hv] at h
      cases h
      exact ⟨fun c1 v1 h1 => h1, by rw [hg, hv]⟩
    · rw [if_neg hv] at h
      cases h
  | none =>
    simp only [hg] at h
    cases h
    constructor
    · intro c0 v0 h0
      rw [colGet_append, h0]
    · rw [colGet_append, hg, colGet_cons]
      simp

theorem mergeAssigns_ok :
    ∀ (assigns acc merged : List (String × Value)),
      mergeAssigns acc assigns = .ok merged →
      (∀ c0 v0, colGet acc c0 = some v0 → colGet merged c0 = some v0) ∧
      (∀ cv, cv ∈ assigns → colGet merged cv.1 = some cv.2) := by
  intro assigns
  induction assigns with
  | nil =>
    intro acc merged h
    cases h
    exact ⟨fun c0 v0 h0 => h0, fun cv hcv => absurd hcv (List.not_mem_nil cv)⟩
  | cons hd rest ih =>
    intro acc merged h
    obtain ⟨c, v⟩ := hd
    unfold mergeAssigns at h
    cases hm : mergeAssign acc c v with
    | error e => rw [hm] at h; cases h
    | ok acc1 =>
      rw [hm] at h
      have H1 := mergeAssign_ok acc c v acc1 hm
      have H2 := ih acc1 merged h
      constructor
      · intro c0 v0 h0
        exact H2.1 c0 v0 (H1.1 c0 v0 h0)
      · intro cv hcv
        rcases List.mem_cons.mp hcv with rfl | htl
        · exact H2.1 c v H1.2
        · exact H2.2 cv htl

theorem resolveUpdateKwargs_ok (env : String → UpdateTarget) :
    ∀ (kwargs : List (String × Value)) (acc merged : List (String × Value)),
      resolveUpdateKwargs env acc kwargs = .ok merged →
      (∀ c0 v0, colGet acc c0 = some v0 → colGet merged c0 = some v0) ∧
      (∀ k, k ∈ kwargs → ∀ a, kwargAssigns env k.1 k.2 = .ok a →
        ∀ cv, cv ∈ a → colGet merged cv.1 = some cv.2) := by
  intro kwargs
  induction kwargs with
  | nil =>
    intro acc merged h
    cases h
    exact ⟨fun c0 v0 h0 => h0, fun k hk => absurd hk (List.not_mem_nil k)⟩
  | cons hd rest ih =>
    intro acc merged h
    obtain ⟨name, v⟩ := hd
    unfold resolveUpdateKwargs at h
    cases hka : kwargAssigns env name v with
    | error e => rw [hka] at h; cases h
    | ok a =>
      simp only [hka] at h
      cases hm : mergeAssigns acc a with
      | error e => simp only [hm] at h; cases h
      | ok acc1 =>
        simp only [hm] at h
        have HM := mergeAssigns_ok a acc acc1 hm
        have HR := ih acc1 merged h
        constructor
        · intro c0 v0 h0
          exact HR.1 c0 v0 (HM.1 c0 v0 h0)
        · intro k hk a' ha' cv hcv
          rcases List.mem_cons.mp hk with rfl | htl
          · have haa : a' = a := by
              rw [hka] at ha'
              cases ha'
              rfl
            subst haa
            exact HR.1 cv.1 cv.2 (HM.2 cv hcv)
          · exact HR.2 k htl a' ha' cv hcv

theorem mergeAssigns_success :
    ∀ (assigns acc : List (String × Value)),
      (∀ cv, cv ∈ assigns → ∀ v0, colGet acc cv.1 = some v0 → cv.2 = v0) →
      (∀ cv cw, cv ∈ assigns → cw ∈ assigns → cv.1 = cw.1 → cv.2 = cw.2) →
      ∃ acc1, mergeAssigns acc assigns = .ok acc1 ∧
        (∀ c v, colGet acc1 c = some v →
          colGet acc c = some v ∨ (c, v) ∈ assigns) := by
  intro assigns
  induction assigns with
  | nil =>
    intro acc _ _
    exact ⟨acc, rfl, fun c v h => Or.inl h⟩
  | cons hd rest ih =>
    intro acc hacc hint
    obtain ⟨c0, v0⟩ := hd
    cases hg : colGet acc c0 with
    | some w =>
      have hv : v0 = w := hacc (c0, v0) (List.mem_cons_self _ _) w hg
      have hmerge : mergeAssign acc c0 v0 = .ok acc := by
        unfold mergeAssign
        simp only [hg]
        rw [if_pos hv.symm]
      obtain ⟨acc1, hok, hchar⟩ := ih acc
        (fun cv hcv => hacc cv (List.mem_cons_of_mem _ hcv))
        (fun cv cw hcv hcw => hint cv cw (List.mem_cons_of_mem _ hcv)
          (List.mem_cons_of_mem _ hcw))
      refine ⟨acc1, ?_, ?_⟩
      · unfold mergeAssigns
        simp only [hmerge]
        exact hok
      · intro c v h
        rcases hchar c v h with hl | hr
        · exact Or.inl hl
        · exact Or.inr (List.mem_cons_of_mem _ hr)
    | none =>
      have hmerge : mergeAssign acc c0 v0 = .ok (acc ++ [(c0, v0)]) := by
        unfold mergeAssign
        simp only [hg]
      have hget : ∀ c w, colGet (acc ++ [(c0, v0)]) c = some w →
          colGet acc c = some w ∨ (c0 = c ∧ v0 = w) := by
        intro c w hw
        rw [colGet_append] at hw
        cases hga : colGet acc c with
        | some w0 =>
          simp only [hga, Option.some.injEq] at hw
          subst hw
          exact Or.inl rfl
        | none =>
          simp only [hga] at hw
          rw [colGet_cons] at hw
          by_cases hc : c0 = c
          · rw [if_pos hc] at hw
            cases hw
            exact Or.inr ⟨hc, rfl⟩
          · rw [if_neg hc] at hw
            rw [colGet_nil] at hw
            cases hw
      have hacc2 : ∀ cv, cv ∈ rest → ∀ w, colGet (acc ++ [(c0, v0)]) cv.1 = some w →
          cv.2 = w := by
        intro cv hcv w hw
        rcases hget cv.1 w hw with hl | ⟨hc, hv⟩
        · exact hacc cv (List.mem_cons_of_mem _ hcv) w hl
        · rw [← hv]
          exact hint cv (c0, v0) (List.mem_cons_of_mem _ hcv)
            (List.mem_cons_self _ _) hc.symm
      obtain ⟨acc1, hok, hchar⟩ := ih (acc ++ [(c0, v0)]) hacc2
        (fun cv cw hcv hcw => hint cv cw (List.mem_cons_of_mem _ hcv)
          (List.mem_cons_of_mem _ hcw))
      refine ⟨acc1, ?_, ?_⟩
      · unfold mergeAssigns
        simp only [hmerge]
        exact hok
      · intro c v h
        rcases hchar c v h with hl | hr
        · rcases hget c v hl with hal | ⟨hc, hv⟩
          · exact Or.inl hal
          · refine Or.inr (List.mem_cons.mpr (Or.inl ?_))
            rw [← hc, ← hv]
        · exact Or.inr (List.mem_cons_of_mem _ hr)

theorem resolveUpdateKwargs_success (env : String → UpdateTarget) :
    ∀ (kwargs acc : List (String × Value)),
      (∀ k, k ∈ kwargs → ∃ a, kwargAssigns env k.1 k.2 = .ok a) →
      (∀ k1 k2 a1 a2 c v1 v2, k1 ∈ kwargs → k2 ∈ kwargs →
        kwargAssigns env k1.1 k1.2 = .ok a1 → kwargAssigns env k2.1 k2.2 = .ok a2 →
        (c, v1) ∈ a1 → (c, v2) ∈ a2 → v1 = v2) →
      (∀ c v, colGet acc c = some v → ∀ k a, k ∈ kwargs →
        kwargAssigns env k.1 k.2 = .ok a → ∀ v', (c, v') ∈ a → v' = v) →
      ∃ merged, resolveUpdateKwargs env acc kwargs = .ok merged := by
  intro kwargs
  induction kwargs with
  | nil =>
    intro acc _ _ _
    exact ⟨acc, rfl⟩
  | cons hd rest ih =>
    intro acc hres hagree hinv
    obtain ⟨a, ha⟩ := hres hd (List.mem_cons_self _ _)
    have haccA : ∀ cv, cv ∈ a → ∀ v0, colGet acc cv.1 = some v0 → cv.2 = v0 := by
      intro cv hcv v0 h0
      refine hinv cv.1 v0 h0 hd a (List.mem_cons_self _ _) ha cv.2 ?_
      rw [Prod.mk.eta]
      exact hcv
    have hintA : ∀ cv cw, cv ∈ a → cw ∈ a → cv.1 = cw.1 → cv.2 = cw.2 := by
      intro cv cw hcv hcw hc
      have h1 : (cv.1, cv.2) ∈ a := by rw [Prod.mk.eta]; exact hcv
      have h2 : (cv.1, cw.2) ∈ a := by rw [hc, Prod.mk.eta]; exact hcw
      exact hagree hd hd a a cv.1 cv.2 cw.2 (List.mem_cons_self _ _)
        (List.mem_cons_self _ _) ha ha h1 h2
    obtain ⟨acc1, hok, hchar⟩ := mergeAssigns_success a acc haccA hintA
    have hinv2 : ∀ c v, colGet acc1 c = some v → ∀ k a2, k ∈ rest →
        kwargAssigns env k.1 k.2 = .ok a2 → ∀ v', (c, v') ∈ a2 → v' = v := by
      intro c v hcv k a2 hk ha2 v' hv'
      rcases hchar c v hcv with hl | hr
      · exact hinv c v hl k a2 (List.mem_cons_of_mem _ hk) ha2 v' hv'
      · exact hagree k hd a2 a c v' v (List.mem_cons_of_mem _ hk)
          (List.mem_cons_self _ _) ha2 ha hv' hr
    obtain ⟨merged, hm⟩ := ih acc1
      (fun k hk => hres k (List.mem_cons_of_mem _ hk))
      (fun k1 k2 a1 a2 c v1 v2 hk1 hk2 h1 h2 hm1 hm2 =>
        hagree k1 k2 a1 a2 c v1 v2 (List.mem_cons_of_mem _ hk1)
          (List.mem_cons_of_mem _ hk2) h1 h2 hm1 hm2)
      hinv2
    refine ⟨merged, ?_⟩
    obtain ⟨name, v⟩ := hd
    unfold resolveUpdateKwargs
    simp only [ha, hok]
    exact hm

/-- Claim C8 (spec-modelled): when two resolved update sources (properties or
raw column keywords) assign different values to the same column, the update
call raises before any UPDATE is issued, leaving every row unchanged; when
all sources agree on every shared column, the merged assignments are applied
through the single native UPDATE, which succeeds and reflects every source
assignment. -/
theorem c8_update_conflict_handling (env : String → UpdateTarget) (db : List Row)
    (kwargs : List (String × Value)) :
    (∀ k1 k2 a1 a2 c v1 v2, k1 ∈ kwargs → k2 ∈ kwargs →
        kwargAssigns env k1.1 k1.2 = .ok a1 → kwargAssigns env k2.1 k2.2 = .ok a2 →
        (c, v1) ∈ a1 → (c, v2) ∈ a2 → ¬ v1 = v2 →
        ∃ e, qp_update env db kwargs = (db, some e)) ∧
    ((∀ k, k ∈ kwargs → ∃ a, kwargAssigns env k.1 k.2 = .ok a) →
      (∀ k1 k2 a1 a2 c v1 v2, k1 ∈ kwargs → k2 ∈ kwargs →
        kwargAssigns env k1.1 k1.2 = .ok a1 → kwargAssigns env k2.1 k2.2 = .ok a2 →
        (c, v1) ∈ a1 → (c, v2) ∈ a2 → v1 = v2) →
      ∃ merged, resolveUpdateKwargs env [] kwargs = .ok merged ∧
        qp_update env db kwargs = (nativeUpdate db merged, none) ∧
        (∀ k, k ∈ kwargs → ∀ a, kwargAssigns env k.1 k.2 = .ok a →
          ∀ cv, cv ∈ a → colGet merged cv.1 = some cv.2)) := by
  constructor
  · intro k1 k2 a1 a2 c v1 v2 hk1 hk2 h1 h2 hm1 hm2 hne
    cases hres : resolveUpdateKwargs env [] kwargs with
    | ok merged =>
      exfalso
      have H := (resolveUpdateKwargs_ok env kwargs [] merged hres).2
      have e1 := H k1 hk1 a1 h1 (c, v1) hm1
      have e2 := H k2 hk2 a2 h2 (c, v2) hm2
      rw [e1] at e2
      exact hne (Option.some.inj e2)
    | error e =>
      refine ⟨e, ?_⟩
      unfold qp_update
      simp only [hres]
  · intro hresv hagree
    obtain ⟨merged, hres⟩ := resolveUpdateKwargs_success env kwargs [] hresv hagree
      (by intro c v hcv; rw [colGet_nil] at hcv; cases hcv)
    refine ⟨merged, hres, ?_, ?_⟩
    · unfold qp_update
      simp only [hres]
    · exact fun k hk a ha cv hcv =>
        (resolveUpdateKwargs_ok env kwargs [] merged hres).2 k hk a ha cv hcv

/-- Closed instance of the C8 theorem: updating with the property
`major_minor` (resolving to `major = 42, minor = 42`) together with the raw
column assignment `major = 18` raises before any UPDATE, leaving the database
unchanged. -/
theorem c8_witness :
    ∃ e, qp_update updEnv exDb
        [("major_minor", .str "42.42"), ("major", .int 18)] = (exDb, some e) := by
  refine (c8_update_conflict_handling updEnv exDb
      [("major_minor", .str "42.42"), ("major", .int 18)]).1
    ("major_minor", .str "42.42") ("major", .int 18)
    [("major", .int 42), ("minor", .int 42)] [("major", .int 18)]
    "major" (.int 42) (.int 18)
    (by decide) (by decide) (by rfl) (by rfl) (by decide) (by decide) (by decide)
